import Mathlib

/-!
Verification of the binary structured-data packing codec specified for this
repository.  The repository ships only TypeScript *declarations* for
`string.pack`, `string.unpack` and `string.packsize` (src/special/cobalt-only.d.ts,
lines 122-141); the codec itself has no implementation under src/.  All codec
definitions below are therefore modelled from the design document, faithful to
its words (sections 3, 4.1-4.4, 6): directive data model, format compiler,
pack / unpack / packsize engines.  IEEE-754 float values are represented by
their binary32/binary64 bit patterns (a nonnegative integer), since the
byte-level behavior specified (emit the pattern's bytes in the active
endianness) is all the codec itself does with them.
-/

deriving instance DecidableEq for Except

/-- Modelled from the spec: endianness mode, one of little / big / native
(spec section 3, Format State). -/
inductive Endianness
  | little
  | big
  | native
deriving DecidableEq, Repr

/-- Modelled from the spec: the platform byte order that the `native` mode
resolves to; this development fixes a little-endian platform. -/
def nativeIsLittle : Bool := true

/-- Resolve an endianness mode to a concrete byte order (true = little). -/
def Endianness.isLittle : Endianness → Bool
  | .little => true
  | .big => false
  | .native => nativeIsLittle

/-- Modelled from the spec: directive operation codes (spec section 3):
signed-int, unsigned-int, float (binary32/64 by width), fixed-string `c[n]`,
length-prefixed string `s[n]`, zero-terminated string `z`, padding byte `x`,
alignment marker `X op`. -/
inductive Opcode
  | sint
  | uint
  | float
  | strFixed
  | strPrefixed
  | strZero
  | padByte
  | alignPad
deriving DecidableEq, Repr

/-- Modelled from the spec: one parsed unit of the format string, carrying the
opcode, the byte width (for `s[n]` the width of the length field, 0 for `z`
and for alignment markers), the resolved byte order, and the natural
alignment. -/
structure Directive where
  op : Opcode
  width : Nat
  little : Bool
  align : Nat
deriving DecidableEq, Repr

/-- Modelled from the spec: a typed scalar or string value consumed by pack or
produced by unpack.  Integers (and float bit patterns) are `vint`; strings are
byte lists `vstr`. -/
inductive Value
  | vint (v : Int)
  | vstr (s : List Nat)
deriving DecidableEq, Repr

/-- Modelled from the spec: compile-time format-string errors (spec section
4.1 / 7; the spec's list is explicitly non-exhaustive).  `OutOfFuel` is an
artifact of the fuel-based termination of the compiler and never occurs when
the fuel is at least the input length. -/
inductive FormatError
  | UnknownOption
  | InvalidWidth
  | MissingOperand
  | InvalidAlignment
  | InvalidNextOption
  | OutOfFuel
deriving DecidableEq, Repr

/-- Modelled from the spec: runtime codec errors (spec section 7; the spec's
list is explicitly non-exhaustive, `TypeMismatch` covers a value of the wrong
kind for a directive). -/
inductive CodecError
  | ArityMismatch
  | StringTooLong
  | EmbeddedNul
  | LengthMismatch
  | OutOfRange
  | Truncated
  | InvalidLengthPrefix
  | VariableSizeNotAllowed
  | TypeMismatch
deriving DecidableEq, Repr

/-- Top-level error of the public entry points: either a compile-time format
error or a runtime codec error. -/
inductive Err
  | fmtErr (e : FormatError)
  | codecErr (e : CodecError)
deriving DecidableEq, Repr

/-- Modelled from the spec: mutable Format State threaded through compilation
(spec section 3): endianness mode (starts native) and max alignment (starts
1). -/
structure CState where
  endian : Endianness
  maxAlign : Nat
deriving DecidableEq, Repr

/-- Modelled from the spec: initial Format State: native endianness, max
alignment 1. -/
def initState : CState := ⟨.native, 1⟩

/-- Modelled from the spec: the native default for the `!` directive with no
operand. -/
def nativeMaxAlign : Nat := 8

/-- Modelled from the spec: natural alignment of a directive =
min(width, max_align) when width > 1, else 1 (spec section 4.1). -/
def natAlign (w maxA : Nat) : Nat :=
  if 1 < w then min w maxA else 1

/-- Little-endian byte list (least significant first) of `m`, exactly `w`
bytes, discarding higher bits. -/
def natToBytesLE : Nat → Nat → List Nat
  | 0, _ => []
  | w + 1, m => (m % 256) :: natToBytesLE w (m / 256)

/-- Unsigned value of a little-endian byte list (least significant first). -/
def bytesToNatLE : List Nat → Nat
  | [] => 0
  | b :: bs => b + 256 * bytesToNatLE bs

/-- Modelled from the spec: encode integer `v` into `w` bytes in the given
byte order, two's-complement, silently discarding high-order bits (spec
section 4.2, truncation policy). -/
def intBytes (little : Bool) (w : Nat) (v : Int) : List Nat :=
  let m := (v % ((2 ^ (8 * w) : Nat) : Int)).toNat
  if little then natToBytesLE w m else (natToBytesLE w m).reverse

/-- Unsigned value denoted by a byte list in the given byte order. -/
def bytesToUInt (little : Bool) (bs : List Nat) : Nat :=
  bytesToNatLE (if little then bs else bs.reverse)

/-- Modelled from the spec: decode `w` bytes as an integer in the given byte
order; two's-complement when signed. -/
def decodeInt (signed little : Bool) (w : Nat) (bs : List Nat) : Int :=
  let u := bytesToUInt little bs
  if signed then
    if u < 2 ^ (8 * w - 1) then (u : Int)
    else (u : Int) - ((2 ^ (8 * w) : Nat) : Int)
  else (u : Int)

/-- Modelled from the spec: number of zero-padding bytes inserted to advance
`cursor` to the next multiple of `align` (spec section 4.2). -/
def padLen (cursor align : Nat) : Nat :=
  (align - cursor % align) % align

/-- Read `n` bytes of `buf` starting at offset `off`. -/
def readBytes (buf : List Nat) (off n : Nat) : List Nat :=
  (buf.drop off).take n

/-- Modelled from the spec: the `!n` operand must be a power of two not
exceeding the ceiling 16 (spec section 4.1). -/
def isPow2Le16 (n : Nat) : Bool :=
  n == 1 || n == 2 || n == 4 || n == 8 || n == 16

/-- Read a decimal operand: consume leading digits, accumulating their value;
return `none` when no digit is present. -/
def readNum : List Char → Option Nat → Option Nat × List Char
  | [], acc => (acc, [])
  | c :: cs, acc =>
    if c.isDigit then readNum cs (some ((acc.getD 0) * 10 + (c.toNat - 48)))
    else (acc, c :: cs)

/-- Classification of a single format-string option character (spec section
4.1 token table). -/
inductive TokKind
  | endianTok (e : Endianness)
  | bangTok
  | intTok (signed : Bool) (defW : Nat) (explicitW : Bool)
  | floatTok (w : Nat)
  | sTok
  | zTok
  | cTok
  | xTok
  | unknownTok
deriving DecidableEq, Repr

/-- Modelled from the spec: the token table of section 4.1, with the platform
default widths: short 2, int 4, long 8, native integer 8, size type 8. -/
def tokKind : Char → TokKind
  | '<' => .endianTok .little
  | '>' => .endianTok .big
  | '=' => .endianTok .native
  | '!' => .bangTok
  | 'b' => .intTok true 1 false
  | 'B' => .intTok false 1 false
  | 'h' => .intTok true 2 false
  | 'H' => .intTok false 2 false
  | 'l' => .intTok true 8 false
  | 'L' => .intTok false 8 false
  | 'j' => .intTok true 8 false
  | 'J' => .intTok false 8 false
  | 'T' => .intTok false 8 false
  | 'i' => .intTok true 4 true
  | 'I' => .intTok false 4 true
  | 'f' => .floatTok 4
  | 'd' => .floatTok 8
  | 'n' => .floatTok 8
  | 's' => .sTok
  | 'z' => .zTok
  | 'c' => .cTok
  | 'x' => .xTok
  | _ => .unknownTok

/-- Result of parsing one token: either a directive or a state change. -/
inductive TokRes
  | dir (d : Directive)
  | state (st : CState)
deriving DecidableEq, Repr

/-- Build a directive from an opcode and width under the current state. -/
def mkDir (op : Opcode) (w : Nat) (st : CState) : Directive :=
  ⟨op, w, st.endian.isLittle, natAlign w st.maxAlign⟩

/-- Modelled from the spec: parse one non-`X` option (with its optional or
required numeric operand) from the head of the character list (spec section
4.1). -/
def parseSimple (cs : List Char) (st : CState) :
    Except FormatError (TokRes × List Char) :=
  match cs with
  | [] => .error .UnknownOption
  | c :: rest =>
    match tokKind c with
    | .endianTok e => .ok (.state ⟨e, st.maxAlign⟩, rest)
    | .bangTok =>
      match readNum rest none with
      | (none, rest') => .ok (.state ⟨st.endian, nativeMaxAlign⟩, rest')
      | (some n, rest') =>
        if isPow2Le16 n then .ok (.state ⟨st.endian, n⟩, rest')
        else .error .InvalidAlignment
    | .intTok sg defW explicitW =>
      if explicitW then
        match readNum rest none with
        | (none, rest') =>
          .ok (.dir (mkDir (if sg then .sint else .uint) defW st), rest')
        | (some n, rest') =>
          if 1 ≤ n ∧ n ≤ 16 then
            .ok (.dir (mkDir (if sg then .sint else .uint) n st), rest')
          else .error .InvalidWidth
      else .ok (.dir (mkDir (if sg then .sint else .uint) defW st), rest)
    | .floatTok w => .ok (.dir (mkDir .float w st), rest)
    | .sTok =>
      match readNum rest none with
      | (none, rest') => .ok (.dir (mkDir .strPrefixed 8 st), rest')
      | (some n, rest') =>
        if 1 ≤ n ∧ n ≤ 16 then .ok (.dir (mkDir .strPrefixed n st), rest')
        else .error .InvalidWidth
    | .zTok => .ok (.dir ⟨.strZero, 0, st.endian.isLittle, 1⟩, rest)
    | .cTok =>
      match readNum rest none with
      | (none, _) => .error .MissingOperand
      | (some n, rest') => .ok (.dir (mkDir .strFixed n st), rest')
    | .xTok => .ok (.dir ⟨.padByte, 1, st.endian.isLittle, 1⟩, rest)
    | .unknownTok => .error .UnknownOption

/-- Modelled from the spec: parse one token, handling the `X op` alignment
marker (which consumes its operand token, emits no bytes and consumes no
value; spec section 4.1). -/
def parseTok (cs : List Char) (st : CState) :
    Except FormatError (Option Directive × CState × List Char) :=
  match cs with
  | [] => .error .UnknownOption
  | c :: rest =>
    if c = 'X' then
      match parseSimple rest st with
      | .error e => .error e
      | .ok (.state _, _) => .error .InvalidNextOption
      | .ok (.dir d, rest') =>
        if 0 < d.width then .ok (some ⟨.alignPad, 0, d.little, d.align⟩, st, rest')
        else .error .InvalidNextOption
    else
      match parseSimple cs st with
      | .error e => .error e
      | .ok (.state st', rest') => .ok (none, st', rest')
      | .ok (.dir d, rest') => .ok (some d, st, rest')

/-- Modelled from the spec: the format compiler loop (spec section 4.1):
scan left to right, skip whitespace, parse one token at a time, threading the
Format State.  Fuel-based recursion; fuel at least the input length always
suffices. -/
def compileFuel : Nat → List Char → CState →
    Except FormatError (List Directive × CState)
  | _, [], st => .ok ([], st)
  | 0, _ :: _, _ => .error .OutOfFuel
  | f + 1, c :: cs, st =>
    if c.isWhitespace then compileFuel f cs st
    else
      match parseTok (c :: cs) st with
      | .error e => .error e
      | .ok (od, st', rest) =>
        match compileFuel f rest st' with
        | .error e => .error e
        | .ok (ds, st'') => .ok (od.toList ++ ds, st'')

/-- Compile a character list with just enough fuel. -/
def compileList (cs : List Char) : Except FormatError (List Directive × CState) :=
  compileFuel cs.length cs initState

/-- Modelled from the spec: `compile(format) -> DirectiveList | FormatError`
(spec section 4.1). -/
def compile (fmt : String) : Except FormatError (List Directive × CState) :=
  compileList fmt.data

/-- Modelled from the spec: process one directive in Pack (spec section 4.2):
returns the payload bytes (alignment padding excluded) and the remaining
values. -/
def packOne (d : Directive) (vs : List Value) :
    Except CodecError (List Nat × List Value) :=
  match d.op with
  | .sint =>
    match vs with
    | .vint v :: rest => .ok (intBytes d.little d.width v, rest)
    | .vstr _ :: _ => .error .TypeMismatch
    | [] => .error .ArityMismatch
  | .uint =>
    match vs with
    | .vint v :: rest => .ok (intBytes d.little d.width v, rest)
    | .vstr _ :: _ => .error .TypeMismatch
    | [] => .error .ArityMismatch
  | .float =>
    match vs with
    | .vint v :: rest => .ok (intBytes d.little d.width v, rest)
    | .vstr _ :: _ => .error .TypeMismatch
    | [] => .error .ArityMismatch
  | .strFixed =>
    match vs with
    | .vstr s :: rest =>
      if s.length = d.width then .ok (s, rest) else .error .LengthMismatch
    | .vint _ :: _ => .error .TypeMismatch
    | [] => .error .ArityMismatch
  | .strPrefixed =>
    match vs with
    | .vstr s :: rest =>
      if s.length < 2 ^ (8 * d.width) then
        .ok (intBytes d.little d.width (s.length : Int) ++ s, rest)
      else .error .StringTooLong
    | .vint _ :: _ => .error .TypeMismatch
    | [] => .error .ArityMismatch
  | .strZero =>
    match vs with
    | .vstr s :: rest =>
      if 0 ∈ s then .error .EmbeddedNul else .ok (s ++ [0], rest)
    | .vint _ :: _ => .error .TypeMismatch
    | [] => .error .ArityMismatch
  | .padByte => .ok ([0], vs)
  | .alignPad => .ok ([], vs)

/-- Modelled from the spec: the Pack engine loop (spec section 4.2): for each
directive insert zero-padding bytes up to the directive's alignment, then the
payload; fail with `ArityMismatch` on leftover values. -/
def packLoop : List Directive → List Value → Nat → Except CodecError (List Nat)
  | [], [], _ => .ok []
  | [], _ :: _, _ => .error .ArityMismatch
  | d :: ds, vs, c =>
    match packOne d vs with
    | .error e => .error e
    | .ok (payload, vs') =>
      match packLoop ds vs' (c + padLen c d.align + payload.length) with
      | .error e => .error e
      | .ok rest => .ok (List.replicate (padLen c d.align) 0 ++ payload ++ rest)

/-- Modelled from the spec: process one directive in Unpack at an aligned
offset (spec section 4.3): returns the decoded value (if the directive
produces one) and the next offset. -/
def unpackOne (d : Directive) (buf : List Nat) (off : Nat) :
    Except CodecError (Option Value × Nat) :=
  match d.op with
  | .sint =>
    if off + d.width ≤ buf.length then
      .ok (some (.vint (decodeInt true d.little d.width (readBytes buf off d.width))),
        off + d.width)
    else .error .Truncated
  | .uint =>
    if off + d.width ≤ buf.length then
      .ok (some (.vint (decodeInt false d.little d.width (readBytes buf off d.width))),
        off + d.width)
    else .error .Truncated
  | .float =>
    if off + d.width ≤ buf.length then
      .ok (some (.vint (decodeInt false d.little d.width (readBytes buf off d.width))),
        off + d.width)
    else .error .Truncated
  | .strFixed =>
    if off + d.width ≤ buf.length then
      .ok (some (.vstr (readBytes buf off d.width)), off + d.width)
    else .error .Truncated
  | .strPrefixed =>
    if off + d.width ≤ buf.length then
      let len := bytesToUInt d.little (readBytes buf off d.width)
      if off + d.width + len ≤ buf.length then
        .ok (some (.vstr (readBytes buf (off + d.width) len)), off + d.width + len)
      else .error .InvalidLengthPrefix
    else .error .Truncated
  | .strZero =>
    match (buf.drop off).findIdx? (fun b => b == 0) with
    | some i => .ok (some (.vstr ((buf.drop off).take i)), off + i + 1)
    | none => .error .Truncated
  | .padByte =>
    if off + 1 ≤ buf.length then .ok (none, off + 1) else .error .Truncated
  | .alignPad => .ok (none, off)

/-- Modelled from the spec: the Unpack engine loop (spec section 4.3):
identical alignment-skip arithmetic as Pack against the running cursor, then
read each directive's payload; fail with `Truncated` when fewer bytes remain
than required. -/
def unpackLoop : List Directive → List Nat → Nat →
    Except CodecError (List Value × Nat)
  | [], _, off => .ok ([], off)
  | d :: ds, buf, off =>
    if off + padLen off d.align ≤ buf.length then
      match unpackOne d buf (off + padLen off d.align) with
      | .error e => .error e
      | .ok (ov, off2) =>
        match unpackLoop ds buf off2 with
        | .error e => .error e
        | .ok (vals, fin) => .ok (ov.toList ++ vals, fin)
    else .error .Truncated

/-- Byte count a fixed-size directive emits in Pack (and consumes in Unpack):
its width for numeric and fixed-string opcodes, one byte for `x`, zero bytes
for an alignment marker. -/
def emitWidth (d : Directive) : Nat :=
  match d.op with
  | .padByte => 1
  | .alignPad => 0
  | _ => d.width

/-- Modelled from the spec: the Size Query engine (spec section 4.4): sum of
each directive's emitted byte count plus all alignment padding, with the same
cursor arithmetic as Pack; fails with `VariableSizeNotAllowed` on the
variable-size directives `s[n]` and `z`. -/
def packsizeLoop : List Directive → Nat → Except CodecError Nat
  | [], c => .ok c
  | d :: ds, c =>
    match d.op with
    | .strPrefixed => .error .VariableSizeNotAllowed
    | .strZero => .error .VariableSizeNotAllowed
    | _ => packsizeLoop ds (c + padLen c d.align + emitWidth d)

/-- Modelled from the spec: `string.pack(fmt, values)` (declaration at
src/special/cobalt-only.d.ts:122-126): compile the format string, then encode
the values starting at cursor 0. -/
def string.pack (fmt : String) (values : List Value) : Except Err (List Nat) :=
  match compile fmt with
  | .error e => .error (.fmtErr e)
  | .ok (dirs, _) => (packLoop dirs values 0).mapError .codecErr

/-- Modelled from the spec: `string.unpack(fmt, s, pos)` (declaration at
src/special/cobalt-only.d.ts:128-134): positions are one-based, `pos`
defaults to 1; returns the decoded values plus the one-based index of the
first unread byte. -/
def string.unpack (fmt : String) (s : List Nat) (pos : Option Int) :
    Except Err (List Value × Nat) :=
  let p := pos.getD 1
  if p - 1 < 0 ∨ (s.length : Int) < p - 1 then .error (.codecErr .OutOfRange)
  else
    match compile fmt with
    | .error e => .error (.fmtErr e)
    | .ok (dirs, _) =>
      match unpackLoop dirs s (p - 1).toNat with
      | .error e => .error (.codecErr e)
      | .ok (vals, fin) => .ok (vals, fin + 1)

/-- Modelled from the spec: `string.packsize(fmt)` (declaration at
src/special/cobalt-only.d.ts:136-141). -/
def string.packsize (fmt : String) : Except Err Nat :=
  match compile fmt with
  | .error e => .error (.fmtErr e)
  | .ok (dirs, _) => (packsizeLoop dirs 0).mapError .codecErr

/-- Modelled from the spec: a directive is fixed-width numeric when its opcode
is signed-int, unsigned-int or float. -/
def isNumericB (d : Directive) : Bool :=
  d.op == .sint || d.op == .uint || d.op == .float

/-- Modelled from the spec: a value is within range for a fixed-width numeric
directive: two's-complement range for signed integers (width at least one
byte), `[0, 2^(8w))` for unsigned integers and float bit patterns. -/
def inRangeB (d : Directive) (v : Value) : Bool :=
  match d.op, v with
  | .sint, .vint n =>
    decide (0 < d.width) &&
      decide (-((2 ^ (8 * d.width - 1) : Nat) : Int) ≤ n) &&
      decide (n < ((2 ^ (8 * d.width - 1) : Nat) : Int))
  | .uint, .vint n =>
    decide (0 ≤ n) && decide (n < ((2 ^ (8 * d.width) : Nat) : Int))
  | .float, .vint n =>
    decide (0 ≤ n) && decide (n < ((2 ^ (8 * d.width) : Nat) : Int))
  | _, _ => false

/-- A value sequence fits a directive list when the lists have equal length
and each value is in range for its directive. -/
def fitsB : List Directive → List Value → Bool
  | [], [] => true
  | d :: ds, v :: vs => inRangeB d v && fitsB ds vs
  | _, _ => false

theorem natToBytesLE_length (w m : Nat) : (natToBytesLE w m).length = w := by
  induction w generalizing m with
  | zero => rfl
  | succ w ih => simp [natToBytesLE, ih]

theorem pow8succ (w : Nat) : 2 ^ (8 * (w + 1)) = 256 * 2 ^ (8 * w) := by
  rw [Nat.mul_succ, pow_add]
  ring

theorem bytesToNatLE_natToBytesLE (w m : Nat) :
    bytesToNatLE (natToBytesLE w m) = m % 2 ^ (8 * w) := by
  induction w generalizing m with
  | zero => simp [natToBytesLE, bytesToNatLE, Nat.mod_one]
  | succ w ih =>
    rw [natToBytesLE, bytesToNatLE, ih, pow8succ, Nat.mod_mul]

theorem intBytes_length (l : Bool) (w : Nat) (v : Int) :
    (intBytes l w v).length = w := by
  cases l <;> simp [intBytes, natToBytesLE_length]

theorem emod_two_pow_nonneg (v : Int) (w : Nat) :
    0 ≤ v % ((2 ^ (8 * w) : Nat) : Int) :=
  Int.emod_nonneg v (by positivity)

theorem emod_two_pow_lt (v : Int) (w : Nat) :
    v % ((2 ^ (8 * w) : Nat) : Int) < ((2 ^ (8 * w) : Nat) : Int) :=
  Int.emod_lt_of_pos v (by positivity)

theorem emod_toNat_lt (v : Int) (w : Nat) :
    (v % ((2 ^ (8 * w) : Nat) : Int)).toNat < 2 ^ (8 * w) := by
  have h1 := emod_two_pow_lt v w
  have h0 := emod_two_pow_nonneg v w
  omega

theorem bytesToUInt_intBytes (l : Bool) (w : Nat) (v : Int) :
    bytesToUInt l (intBytes l w v) = (v % ((2 ^ (8 * w) : Nat) : Int)).toNat := by
  have hlt := emod_toNat_lt v w
  cases l <;>
    simp only [bytesToUInt, intBytes, List.reverse_reverse, ite_true, ite_false,
      Bool.false_eq_true, bytesToNatLE_natToBytesLE] <;>
    exact Nat.mod_eq_of_lt hlt

theorem decodeInt_intBytes_unsigned (l : Bool) (w : Nat) (v : Int)
    (h0 : 0 ≤ v) (h1 : v < ((2 ^ (8 * w) : Nat) : Int)) :
    decodeInt false l w (intBytes l w v) = v := by
  simp only [decodeInt, bytesToUInt_intBytes, Bool.false_eq_true, ite_false]
  rw [Int.emod_eq_of_lt h0 h1, Int.toNat_of_nonneg h0]

theorem decodeInt_intBytes_signed (l : Bool) (w : Nat) (v : Int) (hw : 1 ≤ w)
    (h0 : -((2 ^ (8 * w - 1) : Nat) : Int) ≤ v)
    (h1 : v < ((2 ^ (8 * w - 1) : Nat) : Int)) :
    decodeInt true l w (intBytes l w v) = v := by
  have hsplit : (2 : Nat) ^ (8 * w) = 2 ^ (8 * w - 1) * 2 := by
    rw [← pow_succ]
    congr 1
    omega
  have hNval : ((2 ^ (8 * w) : Nat) : Int) = ((2 ^ (8 * w - 1) : Nat) : Int) * 2 := by
    rw [hsplit]
    push_cast
    ring
  simp only [decodeInt, bytesToUInt_intBytes, ite_true]
  rcases le_or_lt 0 v with hv | hv
  · have hveq : v % ((2 ^ (8 * w) : Nat) : Int) = v := by
      apply Int.emod_eq_of_lt hv
      omega
    rw [hveq]
    have hlt : v.toNat < 2 ^ (8 * w - 1) := by omega
    rw [if_pos hlt, Int.toNat_of_nonneg hv]
  · have hveq : v % ((2 ^ (8 * w) : Nat) : Int)
        = v + ((2 ^ (8 * w) : Nat) : Int) := by
      rw [← Int.add_emod_self (a := v) (b := ((2 ^ (8 * w) : Nat) : Int))]
      apply Int.emod_eq_of_lt <;> omega
    rw [hveq]
    have hge : ¬ (v + ((2 ^ (8 * w) : Nat) : Int)).toNat < 2 ^ (8 * w - 1) := by omega
    rw [if_neg hge]
    omega

theorem padLen_lt (c a : Nat) (h : 0 < a) : padLen c a < a := by
  exact Nat.mod_lt _ h

theorem add_padLen_mod (c a : Nat) (h : 0 < a) : (c + padLen c a) % a = 0 := by
  rw [padLen]
  rcases Nat.eq_zero_or_pos (c % a) with h0 | h0
  · rw [h0, Nat.sub_zero, Nat.mod_self, Nat.add_zero, h0]
  · have hlt : c % a < a := Nat.mod_lt _ h
    rw [Nat.mod_eq_of_lt (by omega : a - c % a < a)]
    have hd := Nat.div_add_mod c a
    have heq : c + (a - c % a) = a * (c / a) + a := by omega
    rw [heq, ← Nat.mul_succ, Nat.mul_mod_right]

theorem padLen_one (c : Nat) : padLen c 1 = 0 := by
  simp [padLen, Nat.mod_one]

theorem readBytes_middle (pre xs post : List Nat) :
    readBytes (pre ++ xs ++ post) pre.length xs.length = xs := by
  rw [readBytes, List.append_assoc, List.drop_left, List.take_left]

/-- C3: for every directive list and every position (here: an arbitrary
suffix `d :: ds` reached with running cursor `c`), immediately before the
payload bytes of directive `d` the cursor `c + padLen c d.align` is a
multiple of `d.align`; Pack inserts exactly `padLen c d.align` zero bytes to
reach it, and Unpack advances the cursor by the identical alignment-skip
arithmetic. -/
theorem spec_c3 (d : Directive) (ds : List Directive) (vs : List Value)
    (buf : List Nat) (c : Nat) (h : 0 < d.align) :
    (c + padLen c d.align) % d.align = 0
    ∧ packLoop (d :: ds) vs c =
        (match packOne d vs with
         | .error e => .error e
         | .ok (payload, vs') =>
           match packLoop ds vs' (c + padLen c d.align + payload.length) with
           | .error e => .error e
           | .ok rest => .ok (List.replicate (padLen c d.align) 0 ++ payload ++ rest))
    ∧ unpackLoop (d :: ds) buf c =
        (if c + padLen c d.align ≤ buf.length then
          match unpackOne d buf (c + padLen c d.align) with
          | .error e => .error e
          | .ok (ov, off2) =>
            match unpackLoop ds buf off2 with
            | .error e => .error e
            | .ok (vals, fin) => .ok (ov.toList ++ vals, fin)
        else .error .Truncated) :=
  ⟨add_padLen_mod c d.align h, rfl, rfl⟩

/-- Witness for C3 at a concrete cursor and directive: cursor 1 with a
4-byte-aligned directive is advanced to a multiple of 4. -/
theorem spec_c3_witness : (1 + padLen 1 4) % 4 = 0 :=
  (spec_c3 ⟨.sint, 4, true, 4⟩ [] [] [] 1 (by decide)).1

/-- C4: for every integer-typed directive (signed or unsigned opcode) of
width `w` and every input integer `v` (in particular one too large for `w`
bytes), Pack succeeds, emitting exactly `w` bytes whose unsigned value is
`v` reduced modulo `2^(8w)` (two's-complement for signed opcodes); it never
reports an integer-overflow error. -/
theorem spec_c4 (op : Opcode) (w : Nat) (l : Bool) (a : Nat) (v : Int)
    (vs : List Value) (hop : op = .sint ∨ op = .uint) :
    packOne ⟨op, w, l, a⟩ (.vint v :: vs) = .ok (intBytes l w v, vs)
    ∧ (intBytes l w v).length = w
    ∧ bytesToUInt l (intBytes l w v) = (v % ((2 ^ (8 * w) : Nat) : Int)).toNat := by
  rcases hop with h | h <;> subst h <;>
    exact ⟨rfl, intBytes_length l w v, bytesToUInt_intBytes l w v⟩

/-- Witness for C4: packing 100000 into a signed 2-byte directive succeeds
and emits the low-order bytes of 100000 mod 65536 = 34464 = 0x86a0. -/
theorem spec_c4_witness :
    packOne ⟨Opcode.sint, 2, true, 1⟩ [Value.vint 100000]
      = Except.ok ([160, 134], []) :=
  (spec_c4 .sint 2 true 1 100000 [] (Or.inl rfl)).1

/-- C7: for every string value given to a `z` directive, Pack emits the raw
bytes followed by exactly one zero byte when the string contains no zero
byte, and fails with `EmbeddedNul` (the whole call produces no output) when
it contains a zero byte anywhere. -/
theorem spec_c7 (s : List Nat) (lit : Bool) (ds : List Directive)
    (vs : List Value) (c : Nat) :
    (0 ∈ s →
      packLoop (⟨.strZero, 0, lit, 1⟩ :: ds) (.vstr s :: vs) c
        = .error .EmbeddedNul)
    ∧ (0 ∉ s →
      packLoop [⟨.strZero, 0, lit, 1⟩] [.vstr s] c = .ok (s ++ [0])) := by
  constructor
  · intro h
    simp [packLoop, packOne, h]
  · intro h
    simp [packLoop, packOne, h, padLen_one]

/-- Witness for C7: a string with an embedded zero byte makes Pack fail with
`EmbeddedNul`; one without gets a single zero terminator appended. -/
theorem spec_c7_witness :
    packLoop [⟨Opcode.strZero, 0, true, 1⟩] [Value.vstr [104, 0]] 0
        = Except.error CodecError.EmbeddedNul
    ∧ packLoop [⟨Opcode.strZero, 0, true, 1⟩] [Value.vstr [104, 105]] 0
        = Except.ok [104, 105, 0] :=
  ⟨(spec_c7 [104, 0] true [] [] 0).1 (by decide),
   (spec_c7 [104, 105] true [] [] 0).2 (by decide)⟩

/-- C9: packing the values (1, 256) with format string `"<i4i4"` produces
exactly the eight bytes 01 00 00 00 00 01 00 00, and `packsize("<i4i4")`
returns 8. -/
theorem spec_c9 :
    string.pack ("<i4i4") [Value.vint 1, Value.vint 256]
        = Except.ok [1, 0, 0, 0, 0, 1, 0, 0]
    ∧ string.packsize ("<i4i4") = Except.ok 8 := by
  exact ⟨by decide, by decide⟩

theorem packsizeLoop_isOk_iff (dirs : List Directive) (c : Nat) :
    (∃ n, packsizeLoop dirs c = .ok n) ↔
      ∀ d ∈ dirs, d.op ≠ .strPrefixed ∧ d.op ≠ .strZero := by
  induction dirs generalizing c with
  | nil => simp [packsizeLoop]
  | cons d ds ih =>
    cases hop : d.op <;>
      simp [packsizeLoop, hop, ih, List.forall_mem_cons]

theorem packsizeLoop_error_eq (dirs : List Directive) (c : Nat) (e : CodecError)
    (h : packsizeLoop dirs c = .error e) : e = .VariableSizeNotAllowed := by
  induction dirs generalizing c with
  | nil => simp [packsizeLoop] at h
  | cons d ds ih =>
    cases hop : d.op <;> rw [packsizeLoop, hop] at h <;>
      first
      | exact ih _ h
      | exact (Except.error.inj h).symm

/-- C6: packsize fails exactly on directive lists containing a
length-prefixed (`s[n]`) or zero-terminated (`z`) string directive, always
with error `VariableSizeNotAllowed`; it succeeds precisely when every
directive has a statically known fixed width. -/
theorem spec_c6 (dirs : List Directive) (c : Nat) :
    ((∃ n, packsizeLoop dirs c = .ok n) ↔
      ∀ d ∈ dirs, d.op ≠ .strPrefixed ∧ d.op ≠ .strZero)
    ∧ ∀ e, packsizeLoop dirs c = .error e → e = .VariableSizeNotAllowed :=
  ⟨packsizeLoop_isOk_iff dirs c, fun e h => packsizeLoop_error_eq dirs c e h⟩

/-- Witness for C6: a fixed-width list has a size; a list with an `s2`
directive can only fail with `VariableSizeNotAllowed`. -/
theorem spec_c6_witness :
    (∃ n, packsizeLoop [⟨Opcode.sint, 4, true, 1⟩] 0 = Except.ok n)
    ∧ ∀ e, packsizeLoop [⟨Opcode.strPrefixed, 2, true, 1⟩] 0 = Except.error e →
        e = CodecError.VariableSizeNotAllowed :=
  ⟨(spec_c6 [⟨.sint, 4, true, 1⟩] 0).1.mpr (by decide),
   (spec_c6 [⟨.strPrefixed, 2, true, 1⟩] 0).2⟩

theorem packOne_ok_length (d : Directive) (vs : List Value) (payload : List Nat)
    (vs' : List Value) (h1 : d.op ≠ .strPrefixed) (h2 : d.op ≠ .strZero)
    (h : packOne d vs = .ok (payload, vs')) : payload.length = emitWidth d := by
  cases hop : d.op
  case strPrefixed => rw [hop] at h1; exact absurd rfl h1
  case strZero => rw [hop] at h2; exact absurd rfl h2
  case sint =>
    rcases vs with _ | ⟨n | s, rest⟩ <;> simp [packOne, hop] at h
    obtain ⟨h3, h4⟩ := h
    subst h3
    simp [emitWidth, hop, intBytes_length]
  case uint =>
    rcases vs with _ | ⟨n | s, rest⟩ <;> simp [packOne, hop] at h
    obtain ⟨h3, h4⟩ := h
    subst h3
    simp [emitWidth, hop, intBytes_length]
  case float =>
    rcases vs with _ | ⟨n | s, rest⟩ <;> simp [packOne, hop] at h
    obtain ⟨h3, h4⟩ := h
    subst h3
    simp [emitWidth, hop, intBytes_length]
  case strFixed =>
    rcases vs with _ | ⟨n | s, rest⟩
    · simp [packOne, hop] at h
    · simp [packOne, hop] at h
    · simp only [packOne, hop] at h
      split at h
      · obtain ⟨h3, h4⟩ := Prod.mk.injEq .. ▸ Except.ok.inj h
        subst h3
        simp only [emitWidth, hop]
        omega
      · exact absurd h (by simp)
  case padByte =>
    simp [packOne, hop] at h
    obtain ⟨h3, h4⟩ := h
    subst h3
    simp [emitWidth, hop]
  case alignPad =>
    simp [packOne, hop] at h
    obtain ⟨h3, h4⟩ := h
    subst h3
    simp [emitWidth, hop]

theorem packsizeLoop_cons_ne (d : Directive) (ds : List Directive) (c : Nat)
    (h1 : d.op ≠ .strPrefixed) (h2 : d.op ≠ .strZero) :
    packsizeLoop (d :: ds) c
      = packsizeLoop ds (c + padLen c d.align + emitWidth d) := by
  cases hop : d.op <;>
    first
    | (rw [hop] at h1; exact absurd rfl h1)
    | (rw [hop] at h2; exact absurd rfl h2)
    | simp [packsizeLoop, hop]

theorem packsizeLoop_cons_ok_ne (d : Directive) (ds : List Directive)
    (c n : Nat) (h : packsizeLoop (d :: ds) c = .ok n) :
    d.op ≠ .strPrefixed ∧ d.op ≠ .strZero := by
  constructor <;> intro hop <;> simp [packsizeLoop, hop] at h

theorem packsize_pack_len (dirs : List Directive) :
    ∀ vs c n out, packsizeLoop dirs c = .ok n → packLoop dirs vs c = .ok out →
      c + out.length = n := by
  induction dirs with
  | nil =>
    intro vs c n out hs hp
    rcases vs with _ | ⟨v, rest⟩
    · simp [packsizeLoop] at hs
      simp [packLoop] at hp
      subst hp
      simpa using hs
    · simp [packLoop] at hp
  | cons d ds ih =>
    intro vs c n out hs hp
    obtain ⟨h1, h2⟩ := packsizeLoop_cons_ok_ne d ds c n hs
    rw [packsizeLoop_cons_ne d ds c h1 h2] at hs
    cases hpo : packOne d vs with
    | error e => simp [packLoop, hpo] at hp
    | ok pv =>
      obtain ⟨payload, vs'⟩ := pv
      have hlen := packOne_ok_length d vs payload vs' h1 h2 hpo
      simp only [packLoop, hpo] at hp
      cases hpl : packLoop ds vs' (c + padLen c d.align + payload.length) with
      | error e => rw [hpl] at hp; exact absurd hp (by simp)
      | ok rest =>
        rw [hpl] at hp
        have hout : out = List.replicate (padLen c d.align) 0 ++ payload ++ rest :=
          (Except.ok.inj hp).symm
        rw [hlen] at hpl
        have := ih vs' (c + padLen c d.align + emitWidth d) n rest hs hpl
        subst hout
        simp only [List.length_append, List.length_replicate]
        omega

/-- C2: whenever packsize succeeds on a directive list, the returned integer
equals the byte length of the string pack produces on that directive list
for every value sequence pack accepts. -/
theorem spec_c2 (dirs : List Directive) (vs : List Value) (n : Nat)
    (out : List Nat) (hs : packsizeLoop dirs 0 = .ok n)
    (hp : packLoop dirs vs 0 = .ok out) : out.length = n := by
  have := packsize_pack_len dirs vs 0 n out hs hp
  omega

/-- Witness for C2 on format `bi4` content: one 1-byte and one 4-byte signed
integer, size 5. -/
theorem spec_c2_witness :
    packsizeLoop [⟨Opcode.sint, 1, true, 1⟩, ⟨Opcode.sint, 4, true, 1⟩] 0
        = Except.ok 5
    ∧ ([1, 2, 0, 0, 0] : List Nat).length = 5 :=
  ⟨by decide,
   spec_c2 [⟨.sint, 1, true, 1⟩, ⟨.sint, 4, true, 1⟩]
     [.vint 1, .vint 2] 5 [1, 2, 0, 0, 0] (by decide) (by decide)⟩

theorem unpackOne_fixed_ok (d : Directive) (buf : List Nat) (off : Nat)
    (h1 : d.op ≠ .strPrefixed) (h2 : d.op ≠ .strZero)
    (hle : off + emitWidth d ≤ buf.length) :
    ∃ ov, unpackOne d buf off = .ok (ov, off + emitWidth d) := by
  cases hop : d.op
  case strPrefixed => rw [hop] at h1; exact absurd rfl h1
  case strZero => rw [hop] at h2; exact absurd rfl h2
  all_goals simp only [emitWidth, hop] at hle ⊢
  case alignPad => exact ⟨none, by simp [unpackOne, hop]⟩
  case padByte => exact ⟨none, by simp only [unpackOne, hop]; rw [if_pos hle]⟩
  case sint =>
    exact ⟨_, by simp only [unpackOne, hop]; rw [if_pos hle]⟩
  case uint =>
    exact ⟨_, by simp only [unpackOne, hop]; rw [if_pos hle]⟩
  case float =>
    exact ⟨_, by simp only [unpackOne, hop]; rw [if_pos hle]⟩
  case strFixed =>
    exact ⟨_, by simp only [unpackOne, hop]; rw [if_pos hle]⟩

theorem unpackOne_fixed_err (d : Directive) (buf : List Nat) (off : Nat)
    (h1 : d.op ≠ .strPrefixed) (h2 : d.op ≠ .strZero)
    (hoff : off ≤ buf.length) (hgt : buf.length < off + emitWidth d) :
    unpackOne d buf off = .error .Truncated := by
  cases hop : d.op
  case strPrefixed => rw [hop] at h1; exact absurd rfl h1
  case strZero => rw [hop] at h2; exact absurd rfl h2
  all_goals simp only [emitWidth, hop] at hgt
  case alignPad => exact absurd hgt (by omega)
  case padByte => simp only [unpackOne, hop]; rw [if_neg (by omega)]
  case sint => simp only [unpackOne, hop]; rw [if_neg (by omega)]
  case uint => simp only [unpackOne, hop]; rw [if_neg (by omega)]
  case float => simp only [unpackOne, hop]; rw [if_neg (by omega)]
  case strFixed => simp only [unpackOne, hop]; rw [if_neg (by omega)]

theorem unpack_truncated (dirs : List Directive) :
    ∀ c n buf, packsizeLoop dirs c = .ok n → c ≤ buf.length →
      buf.length < n → unpackLoop dirs buf c = .error .Truncated := by
  induction dirs with
  | nil =>
    intro c n buf hs hc hn
    simp [packsizeLoop] at hs
    subst hs
    exact absurd hn (by omega)
  | cons d ds ih =>
    intro c n buf hs hc hn
    obtain ⟨h1, h2⟩ := packsizeLoop_cons_ok_ne d ds c n hs
    rw [packsizeLoop_cons_ne d ds c h1 h2] at hs
    rw [unpackLoop]
    by_cases hpad : c + padLen c d.align ≤ buf.length
    · rw [if_pos hpad]
      by_cases hw : c + padLen c d.align + emitWidth d ≤ buf.length
      · obtain ⟨ov, hov⟩ := unpackOne_fixed_ok d buf (c + padLen c d.align) h1 h2 hw
        simp only [hov, ih (c + padLen c d.align + emitWidth d) n buf hs hw hn]
      · rw [unpackOne_fixed_err d buf (c + padLen c d.align) h1 h2 hpad (by omega)]
    · rw [if_neg hpad]

/-- C8: for every fixed-width directive list and every buffer with fewer
bytes (from the start offset) than the directive list requires, unpack fails
with `Truncated` and returns no value sequence at all. -/
theorem spec_c8 (dirs : List Directive) (buf : List Nat) (off n : Nat)
    (hs : packsizeLoop dirs off = .ok n) (hoff : off ≤ buf.length)
    (hlt : buf.length < n) :
    unpackLoop dirs buf off = .error .Truncated
    ∧ ∀ r, unpackLoop dirs buf off ≠ .ok r := by
  have h := unpack_truncated dirs off n buf hs hoff hlt
  refine ⟨h, fun r hr => ?_⟩
  rw [h] at hr
  exact absurd hr (by simp)

/-- Witness for C8: a 4-byte integer directive against a 3-byte buffer fails
with `Truncated`. -/
theorem spec_c8_witness :
    unpackLoop [⟨Opcode.sint, 4, true, 1⟩] [1, 2, 3] 0
      = Except.error CodecError.Truncated :=
  (spec_c8 [⟨.sint, 4, true, 1⟩] [1, 2, 3] 0 4 (by decide) (by decide)
    (by decide)).1

/-- C10: calling `string.unpack` with the position argument omitted is the
same as calling it with position 1; positions are one-based, so the read
starts at the first byte of the subject and the returned first-unread index
is one-based. -/
theorem spec_c10 (fmt : String) (s : List Nat) :
    string.unpack fmt s none = string.unpack fmt s (some 1)
    ∧ ∀ dirs st vals fin, compile fmt = .ok (dirs, st) →
        unpackLoop dirs s 0 = .ok (vals, fin) →
        string.unpack fmt s none = .ok (vals, fin + 1) := by
  refine ⟨rfl, fun dirs st vals fin hc hu => ?_⟩
  simp [string.unpack, hc, hu]

/-- Witness for C10: unpacking a little-endian signed short from a two-byte
buffer with the position omitted reads from the first byte and reports the
one-based next index 3. -/
theorem spec_c10_witness :
    string.unpack ("<h") [254, 255] none
      = Except.ok ([Value.vint (-2)], 3) :=
  (spec_c10 ("<h") [254, 255]).2 [⟨.sint, 2, true, 1⟩] ⟨.little, 1⟩
    [Value.vint (-2)] 2 (by decide) (by decide)

theorem unpackOne_numeric (d : Directive) (sg : Bool) (buf : List Nat)
    (off : Nat)
    (hop : (d.op = .sint ∧ sg = true) ∨ ((d.op = .uint ∨ d.op = .float) ∧ sg = false))
    (hle : off + d.width ≤ buf.length) :
    unpackOne d buf off
      = .ok (some (.vint (decodeInt sg d.little d.width (readBytes buf off d.width))),
          off + d.width) := by
  rcases hop with ⟨h, hs⟩ | ⟨h | h, hs⟩ <;> subst hs <;>
    simp only [unpackOne, h] <;> rw [if_pos hle]

theorem roundtrip_cons_step (d : Directive) (ds : List Directive)
    (vs' : List Value) (n : Int) (c : Nat) (pre : List Nat) (sg : Bool)
    (hop : (d.op = .sint ∧ sg = true) ∨ ((d.op = .uint ∨ d.op = .float) ∧ sg = false))
    (hdec : decodeInt sg d.little d.width (intBytes d.little d.width n) = n)
    (hpre : pre.length = c)
    (hrec : ∀ pre2 : List Nat, pre2.length = c + padLen c d.align + d.width →
      ∃ out, packLoop ds vs' (c + padLen c d.align + d.width) = .ok out ∧
        unpackLoop ds (pre2 ++ out) (c + padLen c d.align + d.width)
          = .ok (vs', c + padLen c d.align + d.width + out.length)) :
    ∃ out, packLoop (d :: ds) (.vint n :: vs') c = .ok out ∧
      unpackLoop (d :: ds) (pre ++ out) c = .ok (.vint n :: vs', c + out.length) := by
  obtain ⟨rest, hrest, hurest⟩ := hrec
    ((pre ++ List.replicate (padLen c d.align) 0) ++ intBytes d.little d.width n)
    (by simp [hpre, intBytes_length]; omega)
  have hpo : packOne d (Value.vint n :: vs') = .ok (intBytes d.little d.width n, vs') := by
    rcases hop with ⟨h, _⟩ | ⟨h | h, _⟩ <;> simp [packOne, h]
  refine ⟨List.replicate (padLen c d.align) 0 ++ intBytes d.little d.width n ++ rest,
    ?_, ?_⟩
  · have hlen2 : packLoop ds vs'
        (c + padLen c d.align + (intBytes d.little d.width n).length) = .ok rest := by
      rw [intBytes_length]
      exact hrest
    simp only [packLoop, hpo, hlen2]
  · have hassoc :
        pre ++ (List.replicate (padLen c d.align) 0 ++ intBytes d.little d.width n ++ rest)
          = ((pre ++ List.replicate (padLen c d.align) 0) ++ intBytes d.little d.width n)
              ++ rest := by
      simp [List.append_assoc]
    rw [hassoc]
    have hblen :
        ((((pre ++ List.replicate (padLen c d.align) 0) ++ intBytes d.little d.width n)
            ++ rest)).length
          = c + padLen c d.align + d.width + rest.length := by
      simp [hpre, intBytes_length]
      omega
    have h2 : (pre ++ List.replicate (padLen c d.align) 0).length
        = c + padLen c d.align := by
      simp [hpre]
    have h4 : (intBytes d.little d.width n).length = d.width :=
      intBytes_length d.little d.width n
    have h3 := readBytes_middle (pre ++ List.replicate (padLen c d.align) 0)
      (intBytes d.little d.width n) rest
    rw [h2, h4] at h3
    have hone := unpackOne_numeric d sg
      (((pre ++ List.replicate (padLen c d.align) 0) ++ intBytes d.little d.width n)
        ++ rest)
      (c + padLen c d.align) hop (by rw [hblen]; omega)
    rw [h3, hdec] at hone
    rw [unpackLoop, if_pos (by rw [hblen]; omega)]
    simp only [hone, hurest]
    simp [h4]
    omega

theorem pack_unpack_numeric (dirs : List Directive) :
    ∀ vs c (pre : List Nat), (∀ d ∈ dirs, isNumericB d = true) →
      fitsB dirs vs = true → pre.length = c →
      ∃ out, packLoop dirs vs c = .ok out ∧
        unpackLoop dirs (pre ++ out) c = .ok (vs, c + out.length) := by
  induction dirs with
  | nil =>
    intro vs c pre hnum hfit hpre
    rcases vs with _ | ⟨v, rest⟩
    · exact ⟨[], rfl, by simp [unpackLoop]⟩
    · simp [fitsB] at hfit
  | cons d ds ih =>
    intro vs c pre hnum hfit hpre
    rcases vs with _ | ⟨v, vs'⟩
    · simp [fitsB] at hfit
    have hd : isNumericB d = true := hnum d (List.mem_cons_self d ds)
    have hnum' : ∀ x ∈ ds, isNumericB x = true := fun x hx =>
      hnum x (List.mem_cons_of_mem d hx)
    have hops : d.op = .sint ∨ d.op = .uint ∨ d.op = .float := by
      have h5 := hd
      simp only [isNumericB, Bool.or_eq_true, beq_iff_eq] at h5
      tauto
    rcases v with n | s
    case vstr =>
      exfalso
      rcases hops with h | h | h <;> simp [fitsB, inRangeB, h] at hfit
    case vint =>
      rw [fitsB, Bool.and_eq_true] at hfit
      obtain ⟨hr, hfit'⟩ := hfit
      have hrec := fun pre2 hp2 =>
        ih vs' (c + padLen c d.align + d.width) pre2 hnum' hfit' hp2
      rcases hops with hop | hop | hop
      · simp only [inRangeB, hop, Bool.and_eq_true, decide_eq_true_eq] at hr
        obtain ⟨⟨hw, hlo⟩, hhi⟩ := hr
        exact roundtrip_cons_step d ds vs' n c pre true (Or.inl ⟨hop, rfl⟩)
          (decodeInt_intBytes_signed d.little d.width n hw hlo hhi) hpre hrec
      · simp only [inRangeB, hop, Bool.and_eq_true, decide_eq_true_eq] at hr
        obtain ⟨hlo, hhi⟩ := hr
        exact roundtrip_cons_step d ds vs' n c pre false (Or.inr ⟨Or.inl hop, rfl⟩)
          (decodeInt_intBytes_unsigned d.little d.width n hlo hhi) hpre hrec
      · simp only [inRangeB, hop, Bool.and_eq_true, decide_eq_true_eq] at hr
        obtain ⟨hlo, hhi⟩ := hr
        exact roundtrip_cons_step d ds vs' n c pre false (Or.inr ⟨Or.inr hop, rfl⟩)
          (decodeInt_intBytes_unsigned d.little d.width n hlo hhi) hpre hrec

/-- C1: for every directive list of fixed-width numeric directives and every
value sequence within range for the directives' widths, pack succeeds and
unpack on its output starting at offset 0 returns exactly the original value
sequence (together with the total byte count). -/
theorem spec_c1 (dirs : List Directive) (vs : List Value)
    (hnum : ∀ d ∈ dirs, isNumericB d = true) (hfit : fitsB dirs vs = true) :
    ∃ out, packLoop dirs vs 0 = .ok out
      ∧ unpackLoop dirs out 0 = .ok (vs, out.length) := by
  obtain ⟨out, h1, h2⟩ := pack_unpack_numeric dirs vs 0 [] hnum hfit rfl
  exact ⟨out, h1, by simpa using h2⟩

/-- Witness for C1: a signed 2-byte directive and a signed 4-byte directive
with values -2 and 70000 round-trip. -/
theorem spec_c1_witness :
    ∃ out, packLoop [⟨Opcode.sint, 2, true, 1⟩, ⟨Opcode.sint, 4, false, 4⟩]
        [Value.vint (-2), Value.vint 70000] 0 = Except.ok out
      ∧ unpackLoop [⟨Opcode.sint, 2, true, 1⟩, ⟨Opcode.sint, 4, false, 4⟩] out 0
          = Except.ok ([Value.vint (-2), Value.vint 70000], out.length) :=
  spec_c1 [⟨.sint, 2, true, 1⟩, ⟨.sint, 4, false, 4⟩]
    [.vint (-2), .vint 70000] (by decide) (by decide)

theorem readNum_length (cs : List Char) : ∀ acc, (readNum cs acc).2.length ≤ cs.length := by
  induction cs with
  | nil => intro acc; simp [readNum]
  | cons c cs ih =>
    intro acc
    by_cases h : c.isDigit
    · simp only [readNum, h, if_true]
      exact Nat.le_succ_of_le (ih _)
    · simp [readNum, h]

theorem readNum_append (cs : List Char) (r : List Char)
    (hr : ∀ c, r.head? = some c → c.isDigit = false) :
    ∀ acc, readNum (cs ++ r) acc = ((readNum cs acc).1, (readNum cs acc).2 ++ r) := by
  induction cs with
  | nil =>
    intro acc
    rcases r with _ | ⟨c, r'⟩
    · simp [readNum]
    · have hc : c.isDigit = false := hr c rfl
      simp [readNum, hc]
  | cons c cs ih =>
    intro acc
    by_cases h : c.isDigit
    · simp only [List.cons_append, readNum, h, if_true]
      exact ih _
    · simp [readNum, h]

theorem parseSimple_length (cs : List Char) (st : CState) (tr : TokRes)
    (rest : List Char) (h : parseSimple cs st = .ok (tr, rest)) :
    rest.length < cs.length := by
  rcases cs with _ | ⟨c, cs0⟩
  · simp [parseSimple] at h
  have hrl := readNum_length cs0 none
  cases htk : tokKind c <;> rw [parseSimple.eq_def] at h <;> simp only [htk] at h
  case endianTok e =>
    obtain ⟨h1, h2⟩ := Prod.mk.injEq .. ▸ Except.ok.inj h
    subst h2
    simp
  case bangTok =>
    rcases hrn : readNum cs0 none with ⟨optn, rest'⟩
    rw [hrn] at hrl
    rcases optn with _ | n <;> simp only [hrn] at h
    · obtain ⟨h1, h2⟩ := Prod.mk.injEq .. ▸ Except.ok.inj h
      subst h2
      simp at hrl ⊢
      omega
    · split at h
      · obtain ⟨h1, h2⟩ := Prod.mk.injEq .. ▸ Except.ok.inj h
        subst h2
        simp at hrl ⊢
        omega
      · exact absurd h (by simp)
  case intTok sg defW ex =>
    rcases ex with _ | _
    · simp only [Bool.false_eq_true, if_false] at h
      obtain ⟨h1, h2⟩ := Prod.mk.injEq .. ▸ Except.ok.inj h
      subst h2
      simp
    · simp only [if_true] at h
      rcases hrn : readNum cs0 none with ⟨optn, rest'⟩
      rw [hrn] at hrl
      rcases optn with _ | n <;> simp only [hrn] at h
      · obtain ⟨h1, h2⟩ := Prod.mk.injEq .. ▸ Except.ok.inj h
        subst h2
        simp at hrl ⊢
        omega
      · split at h
        · obtain ⟨h1, h2⟩ := Prod.mk.injEq .. ▸ Except.ok.inj h
          subst h2
          simp at hrl ⊢
          omega
        · exact absurd h (by simp)
  case floatTok w =>
    obtain ⟨h1, h2⟩ := Prod.mk.injEq .. ▸ Except.ok.inj h
    subst h2
    simp
  case sTok =>
    rcases hrn : readNum cs0 none with ⟨optn, rest'⟩
    rw [hrn] at hrl
    rcases optn with _ | n <;> simp only [hrn] at h
    · obtain ⟨h1, h2⟩ := Prod.mk.injEq .. ▸ Except.ok.inj h
      subst h2
      simp at hrl ⊢
      omega
    · split at h
      · obtain ⟨h1, h2⟩ := Prod.mk.injEq .. ▸ Except.ok.inj h
        subst h2
        simp at hrl ⊢
        omega
      · exact absurd h (by simp)
  case zTok =>
    obtain ⟨h1, h2⟩ := Prod.mk.injEq .. ▸ Except.ok.inj h
    subst h2
    simp
  case cTok =>
    rcases hrn : readNum cs0 none with ⟨optn, rest'⟩
    rw [hrn] at hrl
    rcases optn with _ | n <;> simp only [hrn] at h
    · exact absurd h (by simp)
    · obtain ⟨h1, h2⟩ := Prod.mk.injEq .. ▸ Except.ok.inj h
      subst h2
      simp at hrl ⊢
      omega
  case xTok =>
    obtain ⟨h1, h2⟩ := Prod.mk.injEq .. ▸ Except.ok.inj h
    subst h2
    simp
  case unknownTok =>
    exact absurd h (by simp)

theorem parseSimple_append (cs : List Char) (st : CState) (tr : TokRes)
    (rest : List Char) (r : List Char)
    (hr : ∀ c, r.head? = some c → c.isDigit = false)
    (h : parseSimple cs st = .ok (tr, rest)) :
    parseSimple (cs ++ r) st = .ok (tr, rest ++ r) := by
  rcases cs with _ | ⟨c, cs0⟩
  · simp [parseSimple] at h
  have hra := readNum_append cs0 r hr none
  cases htk : tokKind c <;> rw [parseSimple.eq_def] at h ⊢ <;>
    simp only [htk, List.cons_append] at h ⊢
  case endianTok e =>
    obtain ⟨h1, h2⟩ := Prod.mk.injEq .. ▸ Except.ok.inj h
    subst h1
    subst h2
    rfl
  case bangTok =>
    rcases hrn : readNum cs0 none with ⟨optn, rest'⟩
    rw [hrn] at hra
    rcases optn with _ | n <;> simp only [hrn] at h <;> simp only [hra]
    · obtain ⟨h1, h2⟩ := Prod.mk.injEq .. ▸ Except.ok.inj h
      subst h1
      subst h2
      rfl
    · split at h
      · rename_i hc
        obtain ⟨h1, h2⟩ := Prod.mk.injEq .. ▸ Except.ok.inj h
        subst h1
        subst h2
        rw [if_pos hc]
      · exact absurd h (by simp)
  case intTok sg defW ex =>
    rcases ex with _ | _
    · simp only [Bool.false_eq_true, if_false] at h ⊢
      obtain ⟨h1, h2⟩ := Prod.mk.injEq .. ▸ Except.ok.inj h
      subst h1
      subst h2
      rfl
    · simp only [if_true] at h ⊢
      rcases hrn : readNum cs0 none with ⟨optn, rest'⟩
      rw [hrn] at hra
      rcases optn with _ | n <;> simp only [hrn] at h <;> simp only [hra]
      · obtain ⟨h1, h2⟩ := Prod.mk.injEq .. ▸ Except.ok.inj h
        subst h1
        subst h2
        rfl
      · split at h
        · rename_i hc
          obtain ⟨h1, h2⟩ := Prod.mk.injEq .. ▸ Except.ok.inj h
          subst h1
          subst h2
          rw [if_pos hc]
        · exact absurd h (by simp)
  case floatTok w =>
    obtain ⟨h1, h2⟩ := Prod.mk.injEq .. ▸ Except.ok.inj h
    subst h1
    subst h2
    rfl
  case sTok =>
    rcases hrn : readNum cs0 none with ⟨optn, rest'⟩
    rw [hrn] at hra
    rcases optn with _ | n <;> simp only [hrn] at h <;> simp only [hra]
    · obtain ⟨h1, h2⟩ := Prod.mk.injEq .. ▸ Except.ok.inj h
      subst h1
      subst h2
      rfl
    · split at h
      · rename_i hc
        obtain ⟨h1, h2⟩ := Prod.mk.injEq .. ▸ Except.ok.inj h
        subst h1
        subst h2
        rw [if_pos hc]
      · exact absurd h (by simp)
  case zTok =>
    obtain ⟨h1, h2⟩ := Prod.mk.injEq .. ▸ Except.ok.inj h
    subst h1
    subst h2
    rfl
  case cTok =>
    rcases hrn : readNum cs0 none with ⟨optn, rest'⟩
    rw [hrn] at hra
    rcases optn with _ | n <;> simp only [hrn] at h <;> simp only [hra]
    · exact absurd h (by simp)
    · obtain ⟨h1, h2⟩ := Prod.mk.injEq .. ▸ Except.ok.inj h
      subst h1
      subst h2
      rfl
  case xTok =>
    obtain ⟨h1, h2⟩ := Prod.mk.injEq .. ▸ Except.ok.inj h
    subst h1
    subst h2
    rfl
  case unknownTok =>
    exact absurd h (by simp)

theorem parseTok_length (cs : List Char) (st : CState) (od : Option Directive)
    (st' : CState) (rest : List Char)
    (h : parseTok cs st = .ok (od, st', rest)) : rest.length < cs.length := by
  rcases cs with _ | ⟨c, cs0⟩
  · simp [parseTok] at h
  rw [parseTok.eq_def] at h
  by_cases hX : c = 'X'
  · simp only [hX, if_true] at h
    rcases hps : parseSimple cs0 st with e | ⟨tr, rest'⟩
    · simp [hps] at h
    · rcases tr with d | st2
      · simp only [hps] at h
        split at h
        · simp only [Except.ok.injEq, Prod.mk.injEq] at h
          obtain ⟨h1, h2, h3⟩ := h
          subst h3
          have := parseSimple_length cs0 st (.dir d) rest' hps
          simp
          omega
        · exact absurd h (by simp)
      · simp [hps] at h
  · simp only [hX, if_false] at h
    rcases hps : parseSimple (c :: cs0) st with e | ⟨tr, rest'⟩
    · simp [hps] at h
    · rcases tr with d | st2 <;> simp only [hps, Except.ok.injEq, Prod.mk.injEq] at h <;>
        obtain ⟨h1, h2, h3⟩ := h <;> subst h3 <;>
        exact parseSimple_length (c :: cs0) st _ rest' hps

theorem parseTok_append (cs : List Char) (st : CState) (od : Option Directive)
    (st' : CState) (rest : List Char) (r : List Char)
    (hr : ∀ c, r.head? = some c → c.isDigit = false)
    (h : parseTok cs st = .ok (od, st', rest)) :
    parseTok (cs ++ r) st = .ok (od, st', rest ++ r) := by
  rcases cs with _ | ⟨c, cs0⟩
  · simp [parseTok] at h
  rw [parseTok.eq_def] at h ⊢
  simp only [List.cons_append]
  by_cases hX : c = 'X'
  · simp only [hX, if_true] at h ⊢
    rcases hps : parseSimple cs0 st with e | ⟨tr, rest'⟩
    · simp [hps] at h
    · rcases tr with d | st2
      · have happ := parseSimple_append cs0 st (.dir d) rest' r hr hps
        simp only [hps] at h
        split at h
        · rename_i hw
          simp only [Except.ok.injEq, Prod.mk.injEq] at h
          obtain ⟨h1, h2, h3⟩ := h
          subst h1
          subst h2
          subst h3
          simp only [happ]
          rw [if_pos hw]
        · exact absurd h (by simp)
      · simp [hps] at h
  · simp only [hX, if_false] at h ⊢
    rcases hps : parseSimple (c :: cs0) st with e | ⟨tr, rest'⟩
    · simp [hps] at h
    · have happ := parseSimple_append (c :: cs0) st tr rest' r hr hps
      simp only [List.cons_append] at happ
      rcases tr with d | st2 <;>
        simp only [hps, Except.ok.injEq, Prod.mk.injEq] at h <;>
        obtain ⟨h1, h2, h3⟩ := h <;> subst h1 <;> subst h2 <;> subst h3 <;>
        simp only [happ]

theorem compileFuel_mono (f : Nat) :
    ∀ (cs : List Char) (st : CState) (g : Nat), cs.length ≤ f →
      cs.length ≤ g → compileFuel f cs st = compileFuel g cs st := by
  induction f using Nat.strong_induction_on with
  | _ f ih =>
    intro cs st g hf hg
    rcases cs with _ | ⟨c, cs0⟩
    · rcases f with _ | f' <;> rcases g with _ | g' <;> rfl
    · simp only [List.length_cons] at hf hg
      rcases f with _ | f'
      · exact absurd hf (by omega)
      rcases g with _ | g'
      · exact absurd hg (by omega)
      simp only [compileFuel]
      by_cases hws : c.isWhitespace
      · simp only [hws, if_true]
        exact ih f' (by omega) cs0 st g' (by omega) (by omega)
      · rcases hpt : parseTok (c :: cs0) st with e | ⟨od, st2, rest⟩
        · simp [hws, hpt]
        · have hrl := parseTok_length (c :: cs0) st od st2 rest hpt
          simp only [List.length_cons] at hrl
          simp only [hws, Bool.false_eq_true, if_false, hpt]
          rw [ih f' (by omega) rest st2 g' (by omega) (by omega)]

theorem compileFuel_append (k : Nat) :
    ∀ (p r : List Char) (st : CState) (d1 : List Directive) (st1 : CState),
      p.length ≤ k →
      (∀ c, r.head? = some c → c.isDigit = false) →
      compileFuel p.length p st = .ok (d1, st1) →
      compileFuel (p ++ r).length (p ++ r) st
        = match compileFuel r.length r st1 with
          | .error er => .error er
          | .ok (d2, st2) => .ok (d1 ++ d2, st2) := by
  induction k using Nat.strong_induction_on with
  | _ k ih =>
    intro p r st d1 st1 hk hr hp
    rcases p with _ | ⟨c, p0⟩
    · have h0 : compileFuel ([] : List Char).length [] st = .ok ([], st) := rfl
      rw [h0] at hp
      simp only [Except.ok.injEq, Prod.mk.injEq] at hp
      obtain ⟨h1, h2⟩ := hp
      subst h1
      subst h2
      simp only [List.nil_append]
      cases hres : compileFuel r.length r st with
      | error e => rfl
      | ok pair =>
        rcases pair with ⟨d2, st2⟩
        simp
    · simp only [List.length_cons] at hk hp
      simp only [compileFuel] at hp
      by_cases hws : c.isWhitespace
      · simp only [hws, if_true] at hp
        simp only [List.cons_append, List.length_cons]
        simp only [compileFuel, hws, if_true]
        exact ih p0.length (by omega) p0 r st d1 st1 (le_refl _) hr hp
      · simp only [hws, Bool.false_eq_true, if_false] at hp
        rcases hpt : parseTok (c :: p0) st with e | ⟨od, st2, rest⟩
        · simp [hpt] at hp
        · simp only [hpt] at hp
          rcases hcf : compileFuel p0.length rest st2 with e2 | ⟨ds, st3⟩
          · simp [hcf] at hp
          · simp only [hcf] at hp
            simp only [Except.ok.injEq, Prod.mk.injEq] at hp
            obtain ⟨h1, h2⟩ := hp
            subst h1
            subst h2
            have hrl := parseTok_length (c :: p0) st od st2 rest hpt
            simp only [List.length_cons] at hrl
            have hmono := compileFuel_mono p0.length rest st2 rest.length
              (by omega) (le_refl _)
            rw [hmono] at hcf
            have hih := ih rest.length (by omega) rest r st2 ds st3
              (le_refl _) hr hcf
            have happ := parseTok_append (c :: p0) st od st2 rest r hr hpt
            simp only [List.cons_append] at happ
            simp only [List.cons_append, List.length_cons]
            simp only [compileFuel, hws, Bool.false_eq_true, if_false]
            simp only [happ]
            have hmono2 := compileFuel_mono ((p0 ++ r).length) (rest ++ r) st2
              ((rest ++ r).length) (by simp; omega) (le_refl _)
            rw [hmono2, hih]
            cases hres : compileFuel r.length r st3 with
            | error e => rfl
            | ok pair =>
              rcases pair with ⟨d2, st4⟩
              simp

theorem compileFuel_toggle (f : Nat) (q : List Char) (st : CState) (t : Char)
    (e : Endianness)
    (ht : (t = '<' ∧ e = .little) ∨ (t = '>' ∧ e = .big) ∨ (t = '=' ∧ e = .native)) :
    compileFuel (f + 1) (t :: q) st = compileFuel f q ⟨e, st.maxAlign⟩ := by
  have hpt : parseTok (t :: q) st = .ok (none, ⟨e, st.maxAlign⟩, q) := by
    rcases ht with ⟨h1, h2⟩ | ⟨h1, h2⟩ | ⟨h1, h2⟩ <;> subst h1 <;> subst h2 <;> rfl
  have hwst : t.isWhitespace = false := by
    rcases ht with ⟨h1, _⟩ | ⟨h1, _⟩ | ⟨h1, _⟩ <;> subst h1 <;> decide
  simp only [compileFuel, hwst, Bool.false_eq_true, if_false, hpt]
  cases hres : compileFuel f q ⟨e, st.maxAlign⟩ with
  | error e2 => rfl
  | ok pair =>
    rcases pair with ⟨ds, st2⟩
    simp

/-- C5: the endianness mode starts at native, and an endianness toggle
(`<`, `>` or `=`) changes the byte order only for the directives compiled
after it: the full format splits as the directives of the prefix (compiled
exactly as they are without the toggle) followed by the directives of the
suffix compiled with the new endianness. -/
theorem spec_c5 (p q : List Char) (t : Char) (e : Endianness)
    (d1 : List Directive) (st1 : CState)
    (ht : (t = '<' ∧ e = .little) ∨ (t = '>' ∧ e = .big) ∨ (t = '=' ∧ e = .native))
    (hp : compileList p = .ok (d1, st1)) :
    initState.endian = .native
    ∧ compileList (p ++ t :: q)
        = match compileFuel q.length q ⟨e, st1.maxAlign⟩ with
          | .error er => .error er
          | .ok (d2, st2) => .ok (d1 ++ d2, st2) := by
  constructor
  · rfl
  · have hnd : ∀ c, (t :: q).head? = some c → c.isDigit = false := by
      intro c hc
      simp only [List.head?_cons, Option.some.injEq] at hc
      subst hc
      rcases ht with ⟨h1, _⟩ | ⟨h1, _⟩ | ⟨h1, _⟩ <;> subst h1 <;> decide
    rw [compileList] at hp
    have hdec := compileFuel_append p.length p (t :: q) initState d1 st1
      (le_refl _) hnd hp
    have htog := compileFuel_toggle q.length q st1 t e ht
    rw [compileList, hdec]
    simp only [List.length_cons, htog]

/-- Witness for C5: compiling `i2>i2` gives a little-endian (native) short
before the toggle and a big-endian short after it. -/
theorem spec_c5_witness :
    compileList (['i', '2'] ++ '>' :: ['i', '2'])
      = Except.ok ([⟨Opcode.sint, 2, true, 1⟩, ⟨Opcode.sint, 2, false, 1⟩],
          ⟨Endianness.big, 1⟩) := by
  have h := (spec_c5 ['i', '2'] ['i', '2'] '>' .big [⟨.sint, 2, true, 1⟩]
    ⟨.native, 1⟩ (Or.inr (Or.inl ⟨rfl, rfl⟩)) (by decide)).2
  rw [h]
  decide
